import Mathlib

/-!
# Verification of the streaming transcription pipeline

Shallow embedding of the core of the `laim-mono-dev` repository:

* `capture_and_translate.py` — frame capture, fixed-window chunk assembly and
  the per-chunk API loop with its error handling;
* the diarize/identify/transcribe scripts — speaker identification against the
  enrolled registry, the per-turn minimum-duration filters, segment emission
  and file normalization.

Audio samples are modelled as rationals (`ℚ`), frames and buffers as lists of
samples.  External inference collaborators (diarizer, embedding encoder,
whisper, the scipy `cdist` cosine metric) are parameters of the functions that
call them, exactly at the call boundary the source uses.
-/

set_option autoImplicit false

namespace LaimMono

universe u
variable {α : Type u}

/-! ## Audio settings (`capture_and_translate.py` lines 11-15) -/

def SAMPLE_RATE : ℕ := 16000

def CHUNK_DURATION : ℕ := 5

def CHUNK_SAMPLES : ℕ := SAMPLE_RATE * CHUNK_DURATION

/-! ## Chunk assembly (`capture_and_translate.py`, `main`, lines 85-96)

The inner loop `while len(buffer) >= CHUNK_SAMPLES: chunk = buffer[:CHUNK_SAMPLES];
buffer = buffer[CHUNK_SAMPLES:]` is embedded as `extractChunks`.  The recursion
is paced by a fuel argument initialised to the buffer length; each iteration of
the python loop removes `N ≥ 1` samples, so the buffer length bounds the number
of iterations and the fuel never runs out on the guarded branch. -/

def extractGo (N : ℕ) : ℕ → List α → List (List α) × List α
  | 0, buf => ([], buf)
  | fuel + 1, buf =>
    if 0 < N ∧ N ≤ buf.length then
      let r := extractGo N fuel (buf.drop N)
      (buf.take N :: r.1, r.2)
    else ([], buf)

def extractChunks (N : ℕ) (buf : List α) : List (List α) × List α :=
  extractGo N buf.length buf

/-- Assembler state: chunks emitted so far (in chunk-sequence order) and the
retained leftover buffer. -/
structure AssemblerState (α : Type u) where
  chunks : List (List α)
  buffer : List α

/-- One pass of the outer loop body: `buffer = np.concatenate((buffer, audio_chunk))`
followed by the chunk-extraction loop. -/
def feedFrame (N : ℕ) (st : AssemblerState α) (frame : List α) : AssemblerState α :=
  let r := extractChunks N (st.buffer ++ frame)
  ⟨st.chunks ++ r.1, r.2⟩

/-- Run the assembler from the initial empty state over a whole frame sequence. -/
def feedFrames (N : ℕ) (frames : List (List α)) : AssemblerState α :=
  frames.foldl (feedFrame N) ⟨[], []⟩

theorem extractGo_join (N : ℕ) :
    ∀ (fuel : ℕ) (buf : List α),
      (extractGo N fuel buf).1.flatten ++ (extractGo N fuel buf).2 = buf := by
  intro fuel
  induction fuel with
  | zero => intro buf; rfl
  | succ n ih =>
    intro buf
    rw [extractGo]
    split
    · simpa [List.flatten] using congrArg (buf.take N ++ ·) (ih (buf.drop N))
    · rfl

theorem extractGo_leftover_lt (N : ℕ) (hN : 0 < N) :
    ∀ (fuel : ℕ) (buf : List α), buf.length ≤ fuel →
      (extractGo N fuel buf).2.length < N := by
  intro fuel
  induction fuel with
  | zero =>
    intro buf hbuf
    have : buf.length = 0 := Nat.le_zero.mp hbuf
    simpa [extractGo, this] using hN
  | succ n ih =>
    intro buf hbuf
    rw [extractGo]
    split
    · exact ih (buf.drop N) (by simp [List.length_drop]; omega)
    · rename_i h
      rcases Decidable.not_and_iff_or_not.mp h with h' | h'
      · exact absurd hN h'
      · simpa using Nat.lt_of_not_le h'

theorem extractGo_chunk_length (N : ℕ) :
    ∀ (fuel : ℕ) (buf c : List α), c ∈ (extractGo N fuel buf).1 → c.length = N := by
  intro fuel
  induction fuel with
  | zero => intro buf c hc; simp [extractGo] at hc
  | succ n ih =>
    intro buf c hc
    rw [extractGo] at hc
    split at hc
    · rename_i h
      rcases List.mem_cons.mp hc with rfl | hc
      · simpa [List.length_take] using Nat.min_eq_left h.2
      · exact ih (buf.drop N) c hc
    · simp at hc

theorem extractChunks_join (N : ℕ) (buf : List α) :
    (extractChunks N buf).1.flatten ++ (extractChunks N buf).2 = buf :=
  extractGo_join N buf.length buf

theorem extractChunks_leftover_lt (N : ℕ) (hN : 0 < N) (buf : List α) :
    (extractChunks N buf).2.length < N :=
  extractGo_leftover_lt N hN buf.length buf le_rfl

theorem extractChunks_chunk_length (N : ℕ) (buf c : List α)
    (hc : c ∈ (extractChunks N buf).1) : c.length = N :=
  extractGo_chunk_length N buf.length buf c hc

theorem feedFrames_aux (N : ℕ) :
    ∀ (frames : List (List α)) (st : AssemblerState α),
      (frames.foldl (feedFrame N) st).chunks.flatten ++ (frames.foldl (feedFrame N) st).buffer
        = st.chunks.flatten ++ st.buffer ++ frames.flatten := by
  intro frames
  induction frames with
  | nil => intro st; simp
  | cons f fs ih =>
    intro st
    have h := ih (feedFrame N st f)
    have hx := extractChunks_join N (st.buffer ++ f)
    simp only [List.foldl_cons] at *
    rw [h]
    simp only [feedFrame, List.flatten_append, List.flatten_cons]
    rw [List.append_assoc (st.chunks.flatten), hx]
    simp [List.append_assoc]

/-- Round-trip identity of the assembler: all emitted chunks, in order, followed
by the final leftover, reconstruct the input frame concatenation. -/
theorem feedFrames_roundtrip (N : ℕ) (frames : List (List α)) :
    (feedFrames N frames).chunks.flatten ++ (feedFrames N frames).buffer = frames.flatten := by
  simpa using feedFrames_aux N frames ⟨[], []⟩

theorem feedFrames_buffer_lt (N : ℕ) (hN : 0 < N) (frames : List (List α)) :
    (feedFrames N frames).buffer.length < N := by
  induction frames using List.reverseRecOn with
  | nil => simpa [feedFrames] using hN
  | append_singleton fs f ih =>
    have h : feedFrames N (fs ++ [f]) = feedFrame N (feedFrames N fs) f := by
      simp [feedFrames]
    rw [h]
    exact extractChunks_leftover_lt N hN _

theorem feedFrames_chunk_length (N : ℕ) (frames : List (List α)) (c : List α)
    (hc : c ∈ (feedFrames N frames).chunks) : c.length = N := by
  rw [feedFrames] at hc
  induction frames using List.reverseRecOn with
  | nil => simp [AssemblerState.chunks] at hc
  | append_singleton fs f ih =>
    rw [List.foldl_append] at hc
    simp only [List.foldl_cons, List.foldl_nil, feedFrame] at hc
    rcases List.mem_append.mp hc with h | h
    · exact ih h
    · exact extractChunks_chunk_length N _ c h

/-! ## Per-chunk API loop and its error handling (`capture_and_translate.py`,
`main`, lines 85-135)

Each assembled chunk is sent to the translation API inside a `try/except` whose
handler only prints and falls through, so an API failure never leaves the loop;
exceptions raised outside that inner `try` (the input stream / capture device)
propagate to the outer handler and end the run.  A run is modelled over the
sequence of per-iteration events: a chunk whose API call either succeeds with a
result string or raises, or loss of the capture device. -/

def FILTERED_PHRASES : List String :=
  ["أنا مش عارفة، أنا مش عارفة، أنا مش عارفة"]

/-- Python `needle in haystack` substring test. -/
def strContains (haystack needle : String) : Bool :=
  haystack.toList.tails.any (fun t => needle.toList.isPrefixOf t)

/-- `should_display_result` (`capture_and_translate.py` lines 50-61): empty
results and results containing a filtered phrase are suppressed. -/
def should_display_result (result : String) : Bool :=
  if result = "" then false
  else FILTERED_PHRASES.all (fun phrase => !(strContains result phrase))

inductive CaptureEvent where
  | chunk (outcome : Except String String)
  | deviceLost

def isChunkEvent : CaptureEvent → Bool
  | CaptureEvent.chunk _ => true
  | CaptureEvent.deviceLost => false

/-- The `while True` loop of `main`, at chunk granularity.  Each processed chunk
contributes one entry `(chunk_idx, displayed results)`; an API error is caught
in the inner `except` and contributes the empty emission, after which the loop
continues with the next chunk index; device loss escapes to the outer handler
and terminates the run. -/
def runLoop : ℕ → List CaptureEvent → List (ℕ × List String)
  | _, [] => []
  | i, CaptureEvent.chunk (Except.error _) :: rest => (i, []) :: runLoop (i + 1) rest
  | i, CaptureEvent.chunk (Except.ok r) :: rest =>
      (i, if should_display_result r then [r] else []) :: runLoop (i + 1) rest
  | _, CaptureEvent.deviceLost :: _ => []

theorem runLoop_length_eq :
    ∀ (events : List CaptureEvent) (i : ℕ), (events.all isChunkEvent) = true →
      (runLoop i events).length = events.length := by
  intro events
  induction events with
  | nil => intro i _; rfl
  | cons e rest ih =>
    intro i hall
    rw [List.all_cons, Bool.and_eq_true] at hall
    cases e with
    | chunk o =>
      cases o with
      | error m => simpa [runLoop] using ih (i + 1) hall.2
      | ok r => simpa [runLoop] using ih (i + 1) hall.2
    | deviceLost => simp [isChunkEvent] at hall

/-! ## Speaker registry and identification
(`local_realtime_transcribe.py`, `enroll_speaker` / `load_enrolled_speakers` /
`identify_speaker`, lines 21-49)

`load_enrolled_speakers` builds a dict by scanning `ENROLL_DIR` in `os.listdir`
order, so the registry is an association list `List (String × E)` in that
iteration order.  `identify_speaker` computes a row of cosine distances via
scipy `cdist` and takes `np.argmin`; the metric is the external collaborator,
passed as the parameter `d`. -/

/-- `np.argmin`: index of the first occurrence of the minimum of the list. -/
def argmin : List ℚ → ℕ
  | [] => 0
  | [_] => 0
  | x :: y :: ys =>
    if x ≤ (y :: ys).getD (argmin (y :: ys)) 0 then 0 else argmin (y :: ys) + 1

/-- The row `dists = cdist([embedding], embeddings, metric="cosine")[0]`, with
the metric abstracted as `d`. -/
def distsOf {E : Type} (d : E → E → ℚ) (embedding : E) (enrolled : List (String × E)) :
    List ℚ :=
  enrolled.map (fun p => d embedding p.2)

/-- `dists[min_idx]`, the minimum distance against the registry. -/
def minDistOf {E : Type} (d : E → E → ℚ) (embedding : E)
    (enrolled : List (String × E)) : ℚ :=
  (distsOf d embedding enrolled).getD (argmin (distsOf d embedding enrolled)) 0

def DEFAULT_THRESHOLD : ℚ := 7 / 10

/-- `identify_speaker(embedding, enrolled_speakers, threshold=0.7)`:
empty registry yields "Unknown"; otherwise the profile at the `argmin` of the
distance row is accepted iff its distance is strictly below the threshold. -/
def identify_speaker {E : Type} (d : E → E → ℚ) (embedding : E)
    (enrolled_speakers : List (String × E)) (threshold : ℚ) : String :=
  if enrolled_speakers.isEmpty then "Unknown"
  else if minDistOf d embedding enrolled_speakers < threshold then
    (enrolled_speakers.map Prod.fst).getD
      (argmin (distsOf d embedding enrolled_speakers)) "Unknown"
  else "Unknown"

theorem argmin_lt_length : ∀ (l : List ℚ), l ≠ [] → argmin l < l.length := by
  intro l
  induction l with
  | nil => intro h; exact absurd rfl h
  | cons x t ih =>
    intro _
    cases t with
    | nil => simp [argmin]
    | cons y ys =>
      rw [argmin]
      split
      · simp
      · have := ih (by simp)
        simpa [Nat.succ_lt_succ_iff] using this

theorem argmin_le : ∀ (l : List ℚ) (j : ℕ), j < l.length →
    l.getD (argmin l) 0 ≤ l.getD j 0 := by
  intro l
  induction l with
  | nil => intro j hj; simp at hj
  | cons x t ih =>
    intro j hj
    cases t with
    | nil =>
      have hj0 : j = 0 := Nat.lt_one_iff.mp (by simpa using hj)
      subst hj0
      simp [argmin]
    | cons y ys =>
      rw [argmin]
      split
      · rename_i hx
        cases j with
        | zero => simp
        | succ j' =>
          have hj' : j' < (y :: ys).length := by simpa using hj
          calc (x :: y :: ys).getD 0 0 = x := rfl
            _ ≤ (y :: ys).getD (argmin (y :: ys)) 0 := hx
            _ ≤ (y :: ys).getD j' 0 := ih j' hj'
            _ = (x :: y :: ys).getD (j' + 1) 0 := rfl
      · rename_i hx
        push_neg at hx
        cases j with
        | zero =>
          calc (x :: y :: ys).getD (argmin (y :: ys) + 1) 0
              = (y :: ys).getD (argmin (y :: ys)) 0 := rfl
            _ ≤ x := le_of_lt hx
            _ = (x :: y :: ys).getD 0 0 := rfl
        | succ j' =>
          have hj' : j' < (y :: ys).length := by simpa using hj
          exact ih j' hj'

theorem argmin_first : ∀ (l : List ℚ) (j : ℕ), j < argmin l →
    l.getD (argmin l) 0 < l.getD j 0 := by
  intro l
  induction l with
  | nil => intro j hj; simp [argmin] at hj
  | cons x t ih =>
    intro j hj
    cases t with
    | nil => simp [argmin] at hj
    | cons y ys =>
      rw [argmin] at hj ⊢
      split at hj
      · exact absurd hj (Nat.not_lt_zero j)
      · rename_i hx
        push_neg at hx
        split
        · rename_i hx'
          exact absurd hx' (not_le_of_lt hx)
        · cases j with
          | zero =>
            calc (x :: y :: ys).getD (argmin (y :: ys) + 1) 0
                = (y :: ys).getD (argmin (y :: ys)) 0 := rfl
              _ < x := hx
              _ = (x :: y :: ys).getD 0 0 := rfl
          | succ j' => exact ih j' (Nat.lt_of_succ_lt_succ hj)

theorem getD_mem_or_default {β : Type} : ∀ (l : List β) (i : ℕ) (dflt : β),
    l.getD i dflt ∈ l ∨ l.getD i dflt = dflt := by
  intro l
  induction l with
  | nil => intro i dflt; right; simp
  | cons x t ih =>
    intro i dflt
    cases i with
    | zero => left; simp
    | succ i' =>
      have hstep : (x :: t).getD (i' + 1) dflt = t.getD i' dflt := by
        simp [List.getD]
      rcases ih i' dflt with h | h
      · left; rw [hstep]; exact List.mem_cons_of_mem x h
      · right; rw [hstep]; exact h

/-- Dot product of two sample/embedding vectors. -/
def dotQ : List ℚ → List ℚ → ℚ
  | x :: xs, y :: ys => x * y + dotQ xs ys
  | _, _ => 0

/-- Cosine distance `1 − u·v/(‖u‖‖v‖)` specialised to unit-norm vectors
(`‖u‖ = ‖v‖ = 1`), where it equals `1 − u·v`.  Resemblyzer's
`embed_utterance` returns L2-normalised embeddings, so on the embeddings the
pipeline actually feeds to `cdist(..., metric="cosine")` this is the exact
metric the source computes. -/
def cosDistUnit (u v : List ℚ) : ℚ := 1 - dotQ u v

/-- Speaker profile as §3 of the design describes it: name, embedding and the
enrollment timestamp.  `enroll_speaker` persists only `{name}.npy` holding the
embedding; the timestamp exists on disk as file metadata only and is never read
back. -/
structure SpeakerProfile where
  name : String
  emb : List ℚ
  enrolledAt : ℕ
deriving DecidableEq

/-- `load_enrolled_speakers`: the dict maps each listed file's stem to its
embedding, keyed in `os.listdir` scan order — the order of the input list,
which nothing ties to enrollment time. -/
def loadedRegistry (profiles : List SpeakerProfile) : List (String × List ℚ) :=
  profiles.map (fun p => (p.name, p.emb))

/-- Modelled from the spec: "ties (equal minimum distance across ≥2 profiles)
resolve deterministically to the profile enrolled earliest" — the profile with
the minimal enrollment timestamp.  No such selection exists in the source;
this definition renders the spec's words for comparison. -/
def specEarliestEnrolled : List SpeakerProfile → Option SpeakerProfile
  | [] => none
  | p :: ps =>
    some (ps.foldl (fun best q => if q.enrolledAt < best.enrolledAt then q else best) p)

/-! ## Per-chunk diarize/transcribe loop
(`local_file_diarize_transcribe.py`, `process_chunk`, lines 46-77, and
`local_realtime_transcribe.py`, `process_audio_file`, lines 52-73)

A diarized turn carries start/end times in seconds relative to the processed
audio.  The loops slice `audio[int(turn.start*sr):int(turn.end*sr)]`, skip the
slice if it is too short, and otherwise append a result.  `process_chunk`
requires `len(segment) >= sample_rate // 2` (half a second); `process_audio_file`
requires `len(segment) >= sr` (a full second).  The whisper call is the
external parameter `transcribe : samples → (text, language)`. -/

structure Turn where
  tstart : ℚ
  tend : ℚ
  speaker : String
deriving DecidableEq

/-- `int(turn.start * sample_rate)` for the nonnegative times pyannote emits. -/
def turnStartIdx (sr : ℕ) (t : Turn) : ℕ := (⌊t.tstart * (sr : ℚ)⌋).toNat

def turnEndIdx (sr : ℕ) (t : Turn) : ℕ := (⌊t.tend * (sr : ℚ)⌋).toNat

/-- The slice `audio[start:end]` (python slicing clamps to the array bounds). -/
def segmentOf (audio : List ℚ) (sr : ℕ) (t : Turn) : List ℚ :=
  (audio.drop (turnStartIdx sr t)).take (turnEndIdx sr t - turnStartIdx sr t)

/-- One realtime result record: `{"speaker", "start", "end", "language", "text"}` —
the start/end stored are `turn.start`/`turn.end`, the chunk-relative offsets. -/
structure SegmentOut where
  speaker : String
  start : ℚ
  stop : ℚ
  language : String
  text : String
deriving DecidableEq

/-- `process_chunk`'s per-turn loop (diarization already performed; `turns` is
its ordered output). -/
def process_chunk (transcribe : List ℚ → String × String) (audio : List ℚ)
    (sr : ℕ) : List Turn → List SegmentOut
  | [] => []
  | t :: ts =>
    if (segmentOf audio sr t).length < sr / 2 then process_chunk transcribe audio sr ts
    else
      ⟨t.speaker, t.tstart, t.tend, (transcribe (segmentOf audio sr t)).2,
        (transcribe (segmentOf audio sr t)).1⟩ :: process_chunk transcribe audio sr ts

/-- One output line of the file pipeline: `[{speaker_name}] ({language}): {text}`. -/
structure FileLine where
  speaker : String
  language : String
  text : String
deriving DecidableEq

/-- `process_audio_file`'s per-turn loop: slice, skip slices under `sr` samples,
embed the kept slice, identify against the loaded registry at the default
threshold, transcribe.  `embed` abstracts `encoder.embed_utterance`. -/
def process_audio_file_turns {E : Type} (d : E → E → ℚ) (embed : List ℚ → E)
    (enrolled : List (String × E)) (transcribe : List ℚ → String × String)
    (audio : List ℚ) (sr : ℕ) : List Turn → List FileLine
  | [] => []
  | t :: ts =>
    if (segmentOf audio sr t).length < sr then
      process_audio_file_turns d embed enrolled transcribe audio sr ts
    else
      ⟨identify_speaker d (embed (segmentOf audio sr t)) enrolled DEFAULT_THRESHOLD,
        (transcribe (segmentOf audio sr t)).2, (transcribe (segmentOf audio sr t)).1⟩
        :: process_audio_file_turns d embed enrolled transcribe audio sr ts

/-- Base timestamp of chunk `k` of the realtime run: chunks are consecutive
`CHUNK_DURATION`-second windows of the capture stream. -/
def chunkBaseTime (k : ℕ) : ℚ := (k : ℚ) * (CHUNK_DURATION : ℚ)

/-! ## File normalization (`local_realtime_transcribe.py`, `process_audio_file`,
lines 57-60): `audio = audio.astype(np.float32) / np.max(np.abs(audio))` over
the int16 samples read from the WAV file.

`scipy.io.wavfile.read` yields `int16` samples and `np.abs` on `int16` wraps:
the magnitude is reduced into the signed 16-bit range, so `np.abs(-32768)` is
`-32768`, not `32768`.  The wrap is modelled exactly: `toInt16` reduces an
integer into `[-32768, 32767]` two's-complement style and `absInt16` applies it
to the magnitude. -/

/-- Two's-complement reduction into the signed 16-bit range. -/
def toInt16 (n : ℤ) : ℤ := (n + 32768) % 65536 - 32768

/-- `np.abs` on an int16 sample: the magnitude wrapped back into int16, so
`absInt16 (-32768) = -32768`. -/
def absInt16 (x : ℤ) : ℤ := toInt16 (x.natAbs : ℤ)

/-- `np.max(np.abs(audio))` over the int16 samples (`np.max` of an empty array
raises; a WAV file always has at least one sample). -/
def maxAbs16 : List ℤ → ℤ
  | [] => 0
  | x :: xs => (xs.map absInt16).foldr max (absInt16 x)

/-- The elementwise division performed by the normalization line. -/
def normalize16 (audio : List ℤ) : List ℚ :=
  audio.map (fun x : ℤ => (x : ℚ) / (maxAbs16 audio : ℚ))

/-- On int16 samples other than the wrap value `-32768`, the wrapped absolute
value is the exact absolute value. -/
theorem absInt16_eq_abs (x : ℤ) (h1 : -32768 ≤ x) (h2 : x ≤ 32767)
    (h3 : x ≠ -32768) : absInt16 x = |x| := by
  unfold absInt16 toInt16
  rw [Int.abs_eq_natAbs]
  omega

theorem le_foldr_max : ∀ (l : List ℤ) (init b : ℤ), b = init ∨ b ∈ l →
    b ≤ l.foldr max init := by
  intro l
  induction l with
  | nil =>
    intro init b h
    rcases h with rfl | h
    · exact le_refl b
    · simp at h
  | cons y ys ih =>
    intro init b h
    rcases h with rfl | h
    · exact le_trans (ih b b (Or.inl rfl)) (le_max_right _ _)
    · rcases List.mem_cons.mp h with rfl | h
      · exact le_max_left _ _
      · exact le_trans (ih init b (Or.inr h)) (le_max_right _ _)

theorem foldr_max_le : ∀ (l : List ℤ) (init c : ℤ), init ≤ c → (∀ b ∈ l, b ≤ c) →
    l.foldr max init ≤ c := by
  intro l
  induction l with
  | nil => intro init c h1 _; exact h1
  | cons y ys ih =>
    intro init c h1 h2
    simp only [List.foldr_cons]
    exact max_le (h2 y (List.mem_cons_self y ys))
      (ih init c h1 (fun b hb => h2 b (List.mem_cons_of_mem y hb)))

theorem le_maxAbs16 (audio : List ℤ) (x : ℤ) (hx : x ∈ audio) :
    absInt16 x ≤ maxAbs16 audio := by
  cases audio with
  | nil => simp at hx
  | cons a t =>
    rw [maxAbs16]
    rcases List.mem_cons.mp hx with rfl | hx
    · exact le_foldr_max _ _ _ (Or.inl rfl)
    · exact le_foldr_max _ _ _ (Or.inr (List.mem_map_of_mem absInt16 hx))

/-- Uniform chunk lengths make the flattened length a multiple of the window. -/
theorem flatten_length_uniform {β : Type u} (N : ℕ) :
    ∀ (cs : List (List β)), (∀ c ∈ cs, c.length = N) →
      cs.flatten.length = cs.length * N := by
  intro cs
  induction cs with
  | nil => intro _; simp
  | cons c t ih =>
    intro h
    have hc : c.length = N := h c (List.mem_cons_self c t)
    have ht := ih (fun x hx => h x (List.mem_cons_of_mem c hx))
    simp [List.flatten_cons, hc, ht, Nat.succ_mul, Nat.add_comm]

/-! ## Claims -/

/-- Claim C1: for every sequence of AudioFrames fed to the chunk assembler, the
concatenation of all emitted AudioChunks in chunk-sequence order, followed by
the final leftover buffer, equals the concatenation of all input frames in
capture order — no sample dropped, none duplicated. -/
theorem chunk_assembler_roundtrip (N : ℕ) (frames : List (List ℚ)) :
    (feedFrames N frames).chunks.flatten ++ (feedFrames N frames).buffer
      = frames.flatten :=
  feedFrames_roundtrip N frames

/-- Claim C8: whenever the chunk-extraction loop has finished a pass (the state
the assembler waits in), the retained leftover holds strictly fewer than
`chunk_samples` samples, and when the total input length is an exact multiple
of `chunk_samples` the leftover is empty. -/
theorem chunk_assembler_leftover_invariant (N : ℕ) (hN : 0 < N)
    (frames : List (List ℚ)) :
    (feedFrames N frames).buffer.length < N
  ∧ (N ∣ frames.flatten.length → (feedFrames N frames).buffer = []) := by
  refine ⟨feedFrames_buffer_lt N hN frames, fun hdvd => ?_⟩
  have hlen : (feedFrames N frames).chunks.flatten.length
      + (feedFrames N frames).buffer.length = frames.flatten.length := by
    have h := congrArg List.length (feedFrames_roundtrip N frames)
    simpa [List.length_append] using h
  have hchunks : (feedFrames N frames).chunks.flatten.length
      = (feedFrames N frames).chunks.length * N :=
    flatten_length_uniform N _ (fun c hc => feedFrames_chunk_length N frames c hc)
  have h1 : N ∣ (feedFrames N frames).chunks.flatten.length := by
    rw [hchunks]; exact dvd_mul_left N _
  have hb : (feedFrames N frames).buffer.length
      = frames.flatten.length - (feedFrames N frames).chunks.flatten.length := by
    omega
  have hdvdbuf : N ∣ (feedFrames N frames).buffer.length := by
    rw [hb]; exact Nat.dvd_sub' hdvd h1
  have hz : (feedFrames N frames).buffer.length = 0 :=
    Nat.eq_zero_of_dvd_of_lt hdvdbuf (feedFrames_buffer_lt N hN frames)
  exact List.eq_nil_of_length_eq_zero hz

/-- Witness for C8 at `N = 5` with frames of total length `10`: the leftover is
empty and shorter than the window. -/
theorem chunk_assembler_leftover_invariant_witness :
    (feedFrames 5 [[(1:ℚ), 2, 3], [4, 5, 6, 7, 8, 9, 10]]).buffer.length < 5
  ∧ (5 ∣ ([[(1:ℚ), 2, 3], [4, 5, 6, 7, 8, 9, 10]] : List (List ℚ)).flatten.length →
      (feedFrames 5 [[(1:ℚ), 2, 3], [4, 5, 6, 7, 8, 9, 10]]).buffer = []) :=
  chunk_assembler_leftover_invariant 5 (by decide) [[(1:ℚ), 2, 3], [4, 5, 6, 7, 8, 9, 10]]

/-- Claim C4: a chunk whose API call raises contributes zero displayed results,
the loop is not terminated and the next chunk is processed normally; an
untouched event sequence of pure chunks produces exactly one emission record
per chunk (errors included), while loss of the capture device escapes the
inner handler and ends the run. -/
theorem adapter_error_nonfatal (i : ℕ) (msg r : String) (rest : List CaptureEvent) :
    runLoop i (CaptureEvent.chunk (Except.error msg) :: rest)
      = (i, []) :: runLoop (i + 1) rest
  ∧ runLoop i (CaptureEvent.chunk (Except.ok r) :: rest)
      = (i, if should_display_result r then [r] else []) :: runLoop (i + 1) rest
  ∧ runLoop i (CaptureEvent.deviceLost :: rest) = []
  ∧ ((rest.all isChunkEvent) = true → (runLoop i rest).length = rest.length) :=
  ⟨rfl, rfl, rfl, fun hall => runLoop_length_eq rest i hall⟩

/-- Witness for C4: a concrete all-chunk tail yields one emission record per
chunk after an error was absorbed. -/
theorem adapter_error_nonfatal_witness :
    (runLoop 6 [CaptureEvent.chunk (Except.ok "x"),
        CaptureEvent.chunk (Except.error "boom")]).length = 2 :=
  (adapter_error_nonfatal 6 "boom" "x"
    [CaptureEvent.chunk (Except.ok "x"), CaptureEvent.chunk (Except.error "boom")]).2.2.2
    (by decide)

/-- Claim C2: on a non-empty registry, identification selects the profile at
the first minimum of the distance row — a true minimum — and accepts it iff
its distance is strictly below the threshold: strictly below returns the
enrolled name, at or above (in particular exactly at) the threshold returns
"Unknown". -/
theorem identify_threshold_boundary {E : Type} (d : E → E → ℚ) (e : E)
    (reg : List (String × E)) (θ : ℚ) (h : reg ≠ []) :
    (∀ j, j < reg.length → minDistOf d e reg ≤ (distsOf d e reg).getD j 0)
  ∧ (minDistOf d e reg < θ →
      identify_speaker d e reg θ
        = (reg.map Prod.fst).getD (argmin (distsOf d e reg)) "Unknown")
  ∧ (θ ≤ minDistOf d e reg → identify_speaker d e reg θ = "Unknown") := by
  have hne : reg.isEmpty = false := by
    cases reg with
    | nil => exact absurd rfl h
    | cons a t => rfl
  refine ⟨fun j hj => ?_, fun hlt => ?_, fun hge => ?_⟩
  · exact argmin_le (distsOf d e reg) j (by simpa [distsOf] using hj)
  · rw [identify_speaker, hne]
    simp only [Bool.false_eq_true, if_false]
    exact if_pos hlt
  · rw [identify_speaker, hne]
    simp only [Bool.false_eq_true, if_false]
    exact if_neg (not_lt.mpr hge)

/-- Witness for C2 on real cosine distances of unit embeddings: distance
exactly `7/10` is rejected, distance `0` is accepted with the enrolled name. -/
theorem identify_threshold_boundary_witness :
    identify_speaker cosDistUnit ([1, 0, 0, 0] : List ℚ)
        [("alice", [3/10, 9/10, 3/10, 1/10])] (7/10) = "Unknown"
  ∧ identify_speaker cosDistUnit ([3/10, 9/10, 3/10, 1/10] : List ℚ)
        [("alice", [3/10, 9/10, 3/10, 1/10])] (7/10) = "alice" := by
  have hd1 : minDistOf cosDistUnit ([1, 0, 0, 0] : List ℚ)
      [("alice", [3/10, 9/10, 3/10, 1/10])] = 7/10 := by
    norm_num [minDistOf, distsOf, cosDistUnit, dotQ, argmin]
  have hd2 : minDistOf cosDistUnit ([3/10, 9/10, 3/10, 1/10] : List ℚ)
      [("alice", [3/10, 9/10, 3/10, 1/10])] = 0 := by
    norm_num [minDistOf, distsOf, cosDistUnit, dotQ, argmin]
  constructor
  · exact (identify_threshold_boundary cosDistUnit [1, 0, 0, 0]
      [("alice", [3/10, 9/10, 3/10, 1/10])] (7/10) (by simp)).2.2 (le_of_eq hd1.symm)
  · have h := (identify_threshold_boundary cosDistUnit [3/10, 9/10, 3/10, 1/10]
      [("alice", [3/10, 9/10, 3/10, 1/10])] (7/10) (by simp)).2.1
      (by rw [hd2]; norm_num)
    rw [h]
    simp [distsOf, argmin]

/-- Claim C7: identification is deterministic — two runs on identical turn
embeddings, registry states and thresholds return the identical result. -/
theorem identify_deterministic {E : Type} (d : E → E → ℚ) (e₁ e₂ : E)
    (r₁ r₂ : List (String × E)) (θ₁ θ₂ : ℚ)
    (he : e₁ = e₂) (hr : r₁ = r₂) (hθ : θ₁ = θ₂) :
    identify_speaker d e₁ r₁ θ₁ = identify_speaker d e₂ r₂ θ₂ := by
  subst he; subst hr; subst hθ; rfl

/-- Witness for C7 at a concrete repeated input. -/
theorem identify_deterministic_witness :
    identify_speaker cosDistUnit ([1, 0] : List ℚ) [("alice", [1, 0])] (7/10)
      = identify_speaker cosDistUnit ([1, 0] : List ℚ) [("alice", [1, 0])] (7/10) :=
  identify_deterministic cosDistUnit [1, 0] [1, 0] [("alice", [1, 0])]
    [("alice", [1, 0])] (7/10) (7/10) rfl rfl rfl

/-- Claim C9: the identification result is always either the exact string
"Unknown" or the name of a currently enrolled profile; the empty registry
always yields "Unknown". -/
theorem identify_label_range {E : Type} (d : E → E → ℚ) (e : E)
    (reg : List (String × E)) (θ : ℚ) :
    (identify_speaker d e reg θ = "Unknown"
      ∨ identify_speaker d e reg θ ∈ reg.map Prod.fst)
  ∧ identify_speaker d e ([] : List (String × E)) θ = "Unknown" := by
  constructor
  · rw [identify_speaker]
    split
    · exact Or.inl rfl
    · split
      · rcases getD_mem_or_default (reg.map Prod.fst) (argmin (distsOf d e reg))
          "Unknown" with hm | hm
        · exact Or.inr hm
        · exact Or.inl hm
      · exact Or.inl rfl
  · rfl

/-- Length of the slice `audio[start:end]` in terms of the turn indices. -/
theorem segmentOf_length (audio : List ℚ) (sr : ℕ) (t : Turn) :
    (segmentOf audio sr t).length
      = min (turnEndIdx sr t - turnStartIdx sr t) (audio.length - turnStartIdx sr t) := by
  simp [segmentOf, List.length_take, List.length_drop]

/-- A turn of duration at least half a second lying inside the audio covers at
least `sr / 2` samples of the slice. -/
theorem duration_ge_half_segment (audio : List ℚ) (sr : ℕ) (t : Turn)
    (h0 : 0 ≤ t.tstart) (hend : turnEndIdx sr t ≤ audio.length)
    (hdur : (1 : ℚ)/2 ≤ t.tend - t.tstart) :
    sr / 2 ≤ (segmentOf audio sr t).length := by
  have hs0 : (0:ℚ) ≤ t.tstart * (sr:ℚ) := mul_nonneg h0 (by positivity)
  have hfs : (0:ℤ) ≤ ⌊t.tstart * (sr:ℚ)⌋ := Int.floor_nonneg.mpr hs0
  have hhalf : ((sr / 2 : ℕ) : ℚ) ≤ (t.tend - t.tstart) * (sr:ℚ) := by
    have h1 : ((sr / 2 : ℕ) : ℚ) ≤ (sr:ℚ) / 2 := by
      exact_mod_cast Nat.cast_div_le
    have h2 : (sr:ℚ) / 2 ≤ (t.tend - t.tstart) * (sr:ℚ) := by
      have h3 := mul_le_mul_of_nonneg_right hdur (by positivity : (0:ℚ) ≤ (sr:ℚ))
      calc (sr:ℚ)/2 = (1/2) * (sr:ℚ) := by ring
        _ ≤ (t.tend - t.tstart) * (sr:ℚ) := h3
    linarith
  have hkey : ⌊t.tstart * (sr:ℚ)⌋ + ((sr / 2 : ℕ) : ℤ) ≤ ⌊t.tend * (sr:ℚ)⌋ := by
    apply Int.le_floor.mpr
    rw [Int.cast_add, Int.cast_natCast]
    have hfl : (⌊t.tstart * (sr:ℚ)⌋ : ℚ) ≤ t.tstart * (sr:ℚ) := Int.floor_le _
    have hsplit : t.tend * (sr:ℚ) = t.tstart * (sr:ℚ) + (t.tend - t.tstart) * (sr:ℚ) := by
      ring
    rw [hsplit]
    linarith
  rw [segmentOf_length]
  unfold turnStartIdx turnEndIdx at *
  omega

/-- Claim C3 (amended): on a tie (two or more profiles at equal minimum
distance below the threshold), identification deterministically returns the
profile at the first position of the distance row attaining the minimum — the
first profile in registry iteration order, every earlier position being
strictly farther. -/
theorem identify_tie_first_position {E : Type} (d : E → E → ℚ) (e : E)
    (reg : List (String × E)) (θ : ℚ) (h : reg ≠ [])
    (hacc : minDistOf d e reg < θ) :
    identify_speaker d e reg θ
      = (reg.map Prod.fst).getD (argmin (distsOf d e reg)) "Unknown"
  ∧ ∀ j, j < argmin (distsOf d e reg) →
      minDistOf d e reg < (distsOf d e reg).getD j 0 := by
  have hne : reg.isEmpty = false := by
    cases reg with
    | nil => exact absurd rfl h
    | cons a t => rfl
  constructor
  · rw [identify_speaker, hne]
    simp only [Bool.false_eq_true, if_false]
    exact if_pos hacc
  · intro j hj
    exact argmin_first (distsOf d e reg) j hj

/-- Witness for the amended C3: two profiles tied at distance 0 resolve to the
first one in registry iteration order. -/
theorem identify_tie_first_position_witness :
    identify_speaker cosDistUnit ([1, 0, 0, 0] : List ℚ)
      [("alice", [1, 0, 0, 0]), ("bob", [1, 0, 0, 0])] (7/10) = "alice" := by
  have hd : minDistOf cosDistUnit ([1, 0, 0, 0] : List ℚ)
      [("alice", [1, 0, 0, 0]), ("bob", [1, 0, 0, 0])] = 0 := by
    norm_num [minDistOf, distsOf, cosDistUnit, dotQ, argmin]
  have h := (identify_tie_first_position cosDistUnit [1, 0, 0, 0]
      [("alice", [1, 0, 0, 0]), ("bob", [1, 0, 0, 0])] (7/10) (by simp)
      (by rw [hd]; norm_num)).1
  rw [h]
  norm_num [distsOf, cosDistUnit, dotQ, argmin]

/-- Claim C3 counterexample: the registry holds "alice" (enrolled at time 5)
before "bob" (enrolled at time 2); both are at distance 0 from the turn
embedding, a tie below the threshold.  The earliest-enrolled profile is "bob",
but identification returns "alice" — selection follows registry iteration
order, not enrollment timestamps (which the source never stores or reads). -/
theorem identify_tie_earliest_counterexample :
    distsOf cosDistUnit ([1, 0, 0, 0] : List ℚ)
        (loadedRegistry [⟨"alice", [1, 0, 0, 0], 5⟩, ⟨"bob", [1, 0, 0, 0], 2⟩]) = [0, 0]
  ∧ (0 : ℚ) < DEFAULT_THRESHOLD
  ∧ (specEarliestEnrolled [⟨"alice", [1, 0, 0, 0], 5⟩, ⟨"bob", [1, 0, 0, 0], 2⟩]).map
      SpeakerProfile.name = some "bob"
  ∧ identify_speaker cosDistUnit [1, 0, 0, 0]
      (loadedRegistry [⟨"alice", [1, 0, 0, 0], 5⟩, ⟨"bob", [1, 0, 0, 0], 2⟩])
      DEFAULT_THRESHOLD = "alice"
  ∧ "alice" ≠ "bob" := by
  refine ⟨?_, ?_, ?_, ?_, ?_⟩
  · norm_num [distsOf, loadedRegistry, cosDistUnit, dotQ]
  · norm_num [DEFAULT_THRESHOLD]
  · norm_num [specEarliestEnrolled]
  · rw [identify_speaker]
    norm_num [loadedRegistry, DEFAULT_THRESHOLD, minDistOf, distsOf, cosDistUnit,
      dotQ, argmin]
  · simp

/-- Claim C5 (amended): the realtime chunked pipeline discards exactly the
turns whose extracted slice holds fewer than `sample_rate // 2` samples
(half a second), and a turn of duration at least 0.5 s lying inside the chunk
is always kept; the file pipeline's filter instead requires a full `sr`
samples (1.0 s).  Discarded turns produce zero output records and no error;
kept turns produce exactly one. -/
theorem min_duration_filters {E : Type} (d : E → E → ℚ) (embed : List ℚ → E)
    (enrolled : List (String × E)) (transcribe : List ℚ → String × String)
    (audio : List ℚ) (sr : ℕ) (t : Turn) :
    ((segmentOf audio sr t).length < sr / 2 →
      process_chunk transcribe audio sr [t] = [])
  ∧ (sr / 2 ≤ (segmentOf audio sr t).length →
      (process_chunk transcribe audio sr [t]).length = 1)
  ∧ ((segmentOf audio sr t).length < sr →
      process_audio_file_turns d embed enrolled transcribe audio sr [t] = [])
  ∧ (sr ≤ (segmentOf audio sr t).length →
      (process_audio_file_turns d embed enrolled transcribe audio sr [t]).length = 1)
  ∧ (0 ≤ t.tstart → turnEndIdx sr t ≤ audio.length → (1 : ℚ)/2 ≤ t.tend - t.tstart →
      sr / 2 ≤ (segmentOf audio sr t).length) := by
  refine ⟨fun h => ?_, fun h => ?_, fun h => ?_, fun h => ?_,
    duration_ge_half_segment audio sr t⟩
  · rw [process_chunk, if_pos h]; rfl
  · rw [process_chunk, if_neg (not_lt.mpr h)]; rfl
  · rw [process_audio_file_turns, if_pos h]; rfl
  · rw [process_audio_file_turns, if_neg (not_lt.mpr h)]; rfl

/-- Witness for the amended C5: a 0.7 s turn is dropped by the file pipeline's
full-second filter. -/
theorem min_duration_filters_witness :
    process_audio_file_turns cosDistUnit (fun _ => ([1] : List ℚ)) []
      (fun _ => ("text", "en")) (List.replicate 12 (0:ℚ)) 10 [⟨0, 7/10, "A"⟩] = [] := by
  have hlen : (segmentOf (List.replicate 12 (0:ℚ)) 10 ⟨0, 7/10, "A"⟩).length = 7 := by
    rw [segmentOf_length]
    norm_num [turnStartIdx, turnEndIdx]
    omega
  exact (min_duration_filters cosDistUnit (fun _ => [1]) [] (fun _ => ("text", "en"))
    (List.replicate 12 (0:ℚ)) 10 ⟨0, 7/10, "A"⟩).2.2.1 (by rw [hlen]; norm_num)

/-- Claim C5 counterexample: in the file pipeline (`process_audio_file`) a turn
of duration 0.7 s — comfortably above the claimed 0.5 s minimum — is discarded
and produces zero output records: its slice holds 11200 samples at 16 kHz, and
the filter demands `sr = 16000`. -/
theorem file_pipeline_min_duration_counterexample :
    (1 : ℚ)/2 ≤ (7/10 : ℚ) - 0
  ∧ (segmentOf (List.replicate 16000 (0:ℚ)) 16000 ⟨0, 7/10, "SPEAKER_00"⟩).length = 11200
  ∧ process_audio_file_turns cosDistUnit (fun _ => ([1] : List ℚ)) []
      (fun _ => ("text", "en")) (List.replicate 16000 (0:ℚ)) 16000
      [⟨0, 7/10, "SPEAKER_00"⟩] = [] := by
  have hlen : (segmentOf (List.replicate 16000 (0:ℚ)) 16000
      ⟨0, 7/10, "SPEAKER_00"⟩).length = 11200 := by
    rw [segmentOf_length]
    norm_num [turnStartIdx, turnEndIdx]
    omega
  refine ⟨by norm_num, hlen, ?_⟩
  rw [process_audio_file_turns, if_pos (by rw [hlen]; norm_num)]
  rfl

/-- Claim C6 (amended): every emitted TranscriptSegment carries exactly the
turn's chunk-relative start/end offsets; `process_chunk` never receives or adds
a chunk base timestamp, so "base + offsets" holds only when the base is 0. -/
theorem segments_carry_relative_offsets (transcribe : List ℚ → String × String)
    (audio : List ℚ) (sr : ℕ) (turns : List Turn) :
    (process_chunk transcribe audio sr turns).map (fun s => (s.start, s.stop))
      = (turns.filter
          (fun t => decide (sr / 2 ≤ (segmentOf audio sr t).length))).map
          (fun t => (t.tstart, t.tend)) := by
  induction turns with
  | nil => rfl
  | cons t ts ih =>
    by_cases h : (segmentOf audio sr t).length < sr / 2
    · rw [process_chunk, if_pos h, ih]
      have hp : ¬ (sr / 2 ≤ (segmentOf audio sr t).length) := not_le.mpr h
      simp [List.filter_cons, hp]
    · rw [process_chunk, if_neg h]
      have hp : sr / 2 ≤ (segmentOf audio sr t).length := not_lt.mp h
      simp [List.filter_cons, hp, ih]

/-- Claim C6 counterexample: a turn at offsets 1–3 s inside the chunk with
sequence number 1 (base timestamp 5 s) is emitted with start/end 1 and 3, not
base + offset = 6 and 8. -/
theorem absolute_timestamp_counterexample :
    (process_chunk (fun _ => ("text", "en")) (List.replicate 50 (0:ℚ)) 10
        [⟨1, 3, "SPEAKER_00"⟩]).map (fun s => (s.start, s.stop)) = [((1:ℚ), 3)]
  ∧ chunkBaseTime 1 + 1 ≠ (1:ℚ)
  ∧ chunkBaseTime 1 + 3 ≠ (3:ℚ) := by
  have hlen : (segmentOf (List.replicate 50 (0:ℚ)) 10 ⟨1, 3, "SPEAKER_00"⟩).length = 20 := by
    rw [segmentOf_length]
    norm_num [turnStartIdx, turnEndIdx]
    omega
  refine ⟨?_, ?_, ?_⟩
  · rw [process_chunk, if_neg (by rw [hlen]; norm_num)]
    rfl
  · norm_num [chunkBaseTime, CHUNK_DURATION]
  · norm_num [chunkBaseTime, CHUNK_DURATION]

/-- Claim C10 counterexample: `np.abs` wraps on int16, so the original claim
fails inside its own precondition.  The valid int16 file `[100, -32768]` is
not all zero, yet its divisor is `max(100, -32768) = 100` and the second
normalized sample is `-32768/100 = -327.68 ∉ [-1, 1]`; the valid int16 file
`[0, -32768]` is also not all zero, yet its divisor is `max(0, -32768) = 0`,
reaching the division by zero. -/
theorem normalize16_wrap_counterexample :
    ((100 : ℤ) ∈ ([100, -32768] : List ℤ) ∧ (100 : ℤ) ≠ 0)
  ∧ (∀ x ∈ ([100, -32768] : List ℤ), -32768 ≤ x ∧ x ≤ 32767)
  ∧ maxAbs16 [100, -32768] = 100
  ∧ normalize16 [100, -32768] = [1, -8192/25]
  ∧ ¬ (-1 ≤ (-8192/25 : ℚ))
  ∧ ((-32768 : ℤ) ∈ ([0, -32768] : List ℤ) ∧ (-32768 : ℤ) ≠ 0)
  ∧ maxAbs16 [0, -32768] = 0 := by
  have hmax : maxAbs16 [100, -32768] = 100 := by decide
  refine ⟨by decide, by decide, hmax, ?_, by norm_num, by decide, by decide⟩
  rw [normalize16, hmax]
  norm_num

/-- Claim C10 (amended): the divisor is `np.max(np.abs(audio))` computed in
wrapping int16 arithmetic, where `np.abs(-32768) = -32768`.  For every int16
input file containing no `-32768` sample, the divisor is zero exactly when all
samples are zero, and whenever some sample is nonzero the divisor is positive
and every normalized sample lies in [-1, 1]; files containing `-32768` can
reach a zero (or negative) divisor even when not all samples are zero. -/
theorem normalize16_bounds (audio : List ℤ)
    (hrange : ∀ x ∈ audio, -32768 ≤ x ∧ x ≤ 32767)
    (hno : ∀ x ∈ audio, x ≠ -32768) :
    ((∃ x ∈ audio, x ≠ 0) →
      (0 : ℚ) < (maxAbs16 audio : ℚ)
        ∧ ∀ y ∈ normalize16 audio, -1 ≤ y ∧ y ≤ 1)
  ∧ (maxAbs16 audio = 0 ↔ ∀ x ∈ audio, x = 0) := by
  constructor
  · intro h
    obtain ⟨x₀, hx₀m, hx₀⟩ := h
    have habs0 : absInt16 x₀ = |x₀| :=
      absInt16_eq_abs x₀ (hrange x₀ hx₀m).1 (hrange x₀ hx₀m).2 (hno x₀ hx₀m)
    have hpos : 0 < maxAbs16 audio := by
      have h1 : absInt16 x₀ ≤ maxAbs16 audio := le_maxAbs16 audio x₀ hx₀m
      have h2 : 0 < |x₀| := abs_pos.mpr hx₀
      omega
    have hposQ : (0:ℚ) < (maxAbs16 audio : ℚ) := by exact_mod_cast hpos
    refine ⟨hposQ, ?_⟩
    intro y hy
    simp only [normalize16, List.mem_map] at hy
    obtain ⟨x, hxm, rfl⟩ := hy
    have habs : absInt16 x = |x| :=
      absInt16_eq_abs x (hrange x hxm).1 (hrange x hxm).2 (hno x hxm)
    have h1 : |x| ≤ maxAbs16 audio := habs ▸ le_maxAbs16 audio x hxm
    have hup : (x : ℚ) ≤ (maxAbs16 audio : ℚ) := by exact_mod_cast (abs_le.mp h1).2
    have hlow : -((maxAbs16 audio : ℚ)) ≤ (x : ℚ) := by exact_mod_cast (abs_le.mp h1).1
    constructor
    · rw [le_div_iff₀ hposQ]
      linarith
    · rw [div_le_one hposQ]
      exact hup
  · constructor
    · intro hz x hxm
      have habs : absInt16 x = |x| :=
        absInt16_eq_abs x (hrange x hxm).1 (hrange x hxm).2 (hno x hxm)
      have h1 : absInt16 x ≤ maxAbs16 audio := le_maxAbs16 audio x hxm
      have h2 : |x| ≤ 0 := by omega
      exact abs_nonpos_iff.mp h2
    · intro hz
      cases audio with
      | nil => rfl
      | cons a t =>
        have hzero : absInt16 0 = 0 := by decide
        have ha : absInt16 a = 0 := by
          rw [hz a (List.mem_cons_self a t)]; exact hzero
        rw [maxAbs16]
        apply le_antisymm
        · apply foldr_max_le
          · rw [ha]
          · intro b hb
            obtain ⟨x, hxm, rfl⟩ := List.mem_map.mp hb
            rw [hz x (List.mem_cons_of_mem a hxm)]
            rw [hzero]
        · have h1 := le_foldr_max (t.map absInt16) (absInt16 a) (absInt16 a) (Or.inl rfl)
          omega

/-- Witness for the amended C10 on the wrap-free int16 sample list `[3, -7, 2]`. -/
theorem normalize16_bounds_witness :
    ((0 : ℚ) < (maxAbs16 [3, -7, 2] : ℚ)
      ∧ ∀ y ∈ normalize16 [3, -7, 2], -1 ≤ y ∧ y ≤ 1)
  ∧ (maxAbs16 [3, -7, 2] = 0 ↔ ∀ x ∈ ([3, -7, 2] : List ℤ), x = 0) :=
  ⟨(normalize16_bounds [3, -7, 2] (by decide) (by decide)).1 (by decide),
   (normalize16_bounds [3, -7, 2] (by decide) (by decide)).2⟩

end LaimMono
